import Mathlib

/-!
A verification development for the virtual filesystem (VFS) and terminal
command interpreter of the tweakOS repository
(`src/apps/terminal/vfs.ts`, `src/apps/terminal/terminalCore.ts`).

The TypeScript code is shallowly embedded as executable Lean functions:

* JavaScript strings are Lean `String`s; `path.split('/')` is re-implemented
  character-by-character (`splitOnChar`) with the same semantics for a
  one-character separator, and `filter(Boolean)` on a string array is
  `List.filter (fun s => s ≠ "")` (only the empty string is falsy).
* The mutable node graph (`FileNode` / `DirectoryNode` with a `Map` of
  children) becomes the inductive `FSNode` / `FSChildren`; a JavaScript
  `Map` preserves insertion order, `set` replaces in place, `delete`
  removes the key, so the children are an insertion-ordered association
  list with `cSet` / `cDelete` / `cGet` / `cHas` mirroring those methods.
* Methods that mutate the tree through a parent reference obtained by
  `getParent` become pure functions that return the success flag together
  with the new tree; a failing call returns the tree unchanged, exactly as
  the code leaves the store untouched on its early `return false` paths.
-/

/-- One step of JavaScript `s.split(sep)` for a one-character separator:
walk the characters, cutting the current chunk at each separator. -/
def splitOnCharGo (sep : Char) : List Char → String → List String
  | [], cur => [cur]
  | c :: rest, cur =>
    if c = sep then cur :: splitOnCharGo sep rest ""
    else splitOnCharGo sep rest (cur.push c)

/-- JavaScript `s.split(sep)` for a one-character separator (`'/'`, `'\n'`). -/
def splitOnChar (sep : Char) (s : String) : List String :=
  splitOnCharGo sep s.data ""

/-- JavaScript `path.split('/').filter(Boolean)`: the segments of a path,
empty segments discarded. -/
def splitSegsB (path : String) : List String :=
  (splitOnChar '/' path).filter (fun s => s ≠ "")

/-- JavaScript `path.startsWith('/')`. -/
def startsWithSlash (path : String) : Bool :=
  match path.data with
  | c :: _ => c = '/'
  | [] => false

/-- The `..`/`.` loop of `VirtualFS.resolvePath`: `.` is dropped, `..` pops
the last retained segment when one exists (`resolved.pop()` guarded by
`resolved.length > 0`), anything else is pushed. -/
def normSegs : List String → List String → List String
  | [], acc => acc
  | p :: rest, acc =>
    if p = ".." then normSegs rest acc.dropLast
    else if p = "." then normSegs rest acc
    else normSegs rest (acc ++ [p])

/-- `VirtualFS.resolvePath(path, cwd)`: an absolute path is split on `/`;
a relative one is prefixed with the split of `cwd`; then `normSegs`. -/
def resolvePath (path : String) (cwd : String) : List String :=
  let parts :=
    if startsWithSlash path then splitSegsB path
    else splitSegsB cwd ++ splitSegsB path
  normSegs parts []

theorem mem_splitSegsB_ne_empty {path : String} {s : String}
    (h : s ∈ splitSegsB path) : s ≠ "" := by
  have := List.of_mem_filter h
  simpa using this

theorem normSegs_mem (P : String → Prop) :
    ∀ (l acc : List String), (∀ s ∈ l, s = "." ∨ s = ".." ∨ P s) →
      (∀ s ∈ acc, P s) → ∀ s ∈ normSegs l acc, P s := by
  intro l
  induction l with
  | nil => intro acc _ hacc s hs; exact hacc s hs
  | cons p rest ih =>
    intro acc hl hacc s hs
    unfold normSegs at hs
    by_cases h2 : p = ".."
    · rw [if_pos h2] at hs
      exact ih acc.dropLast (fun t ht => hl t (List.mem_cons_of_mem _ ht))
        (fun t ht => hacc t (List.dropLast_subset _ ht)) s hs
    · rw [if_neg h2] at hs
      by_cases h1 : p = "."
      · rw [if_pos h1] at hs
        exact ih acc (fun t ht => hl t (List.mem_cons_of_mem _ ht)) hacc s hs
      · rw [if_neg h1] at hs
        refine ih (acc ++ [p]) (fun t ht => hl t (List.mem_cons_of_mem _ ht))
          (fun t ht => ?_) s hs
        rcases List.mem_append.mp ht with h | h
        · exact hacc t h
        · have hp : t = p := by simpa using h
          subst hp
          rcases hl t (List.mem_cons_self _ _) with h | h | h
          · exact absurd h h1
          · exact absurd h h2
          · exact h

/-- C3: path normalization. For every path string and cwd, `resolvePath`
produces a segment list in which no segment is empty, `"."` or `".."`
(`.` segments are dropped and `..` pops the last retained segment or is
dropped silently); a path starting with `/` is absolute, so the cwd is
ignored; and the spec's two concrete identities hold:
`resolve("./a/../b", "/x") = resolve("/x/b", "/")` and
`resolve("../../../..", "/a/b") = resolve("/", "/")`. The function is
total, so this step never raises for any input. -/
theorem resolvePath_normalizes (path cwd : String) :
    (∀ s ∈ resolvePath path cwd, s ≠ "" ∧ s ≠ "." ∧ s ≠ "..") ∧
    (startsWithSlash path = true → resolvePath path cwd = resolvePath path "/") ∧
    resolvePath "./a/../b" "/x" = resolvePath "/x/b" "/" ∧
    resolvePath "../../../.." "/a/b" = resolvePath "/" "/" := by
  refine ⟨?_, ?_, by decide, by decide⟩
  · intro s hs
    unfold resolvePath at hs
    have key : ∀ t ∈ normSegs (if startsWithSlash path then splitSegsB path
        else splitSegsB cwd ++ splitSegsB path) [],
        t ≠ "" ∧ t ≠ "." ∧ t ≠ ".." := by
      intro t ht
      have base : ∀ u ∈ (if startsWithSlash path then splitSegsB path
          else splitSegsB cwd ++ splitSegsB path),
          u = "." ∨ u = ".." ∨ (u ≠ "" ∧ u ≠ "." ∧ u ≠ "..") := by
        intro u hu
        by_cases h1 : u = "."
        · exact Or.inl h1
        · by_cases h2 : u = ".."
          · exact Or.inr (Or.inl h2)
          · refine Or.inr (Or.inr ⟨?_, h1, h2⟩)
            split at hu
            · exact mem_splitSegsB_ne_empty hu
            · rcases List.mem_append.mp hu with h | h
              · exact mem_splitSegsB_ne_empty h
              · exact mem_splitSegsB_ne_empty h
      have hnorm := normSegs_mem (fun u => u ≠ "" ∧ u ≠ "." ∧ u ≠ "..") _ [] base
        (by intro u hu; simp at hu)
      exact hnorm t ht
    exact key s hs
  · intro h
    unfold resolvePath
    rw [h]
    simp

/-- A concrete instance of `resolvePath_normalizes` with its hypothesis (the
absolute-path premise) discharged at `path = "/q//r/"`, `cwd = "/w"`. -/
theorem resolvePath_normalizes_witness :
    startsWithSlash "/q//r/" = true ∧
    resolvePath "/q//r/" "/w" = resolvePath "/q//r/" "/" ∧
    (∀ s ∈ resolvePath "/q//r/" "/w", s ≠ "" ∧ s ≠ "." ∧ s ≠ "..") := by
  have h := resolvePath_normalizes "/q//r/" "/w"
  exact ⟨by decide, h.2.1 (by decide), h.1⟩

mutual
/-- The node graph of `vfs.ts`: a `FileNode` (`{type:'file', name, content}`)
or a `DirectoryNode` (`{type:'directory', name, children: Map}`). -/
inductive FSNode where
  | file (name content : String)
  | dir (name : String) (children : FSChildren)
  deriving Repr, DecidableEq
/-- The `Map<string, FSNode>` of a directory's children: an
insertion-ordered association list, mirroring JavaScript `Map` semantics. -/
inductive FSChildren where
  | nil
  | cons (key : String) (node : FSNode) (rest : FSChildren)
  deriving Repr, DecidableEq
end

/-- JavaScript `Map.prototype.get`. -/
def cGet : FSChildren → String → Option FSNode
  | .nil, _ => none
  | .cons k v rest, key => if k = key then some v else cGet rest key

/-- JavaScript `Map.prototype.has`. -/
def cHas (ch : FSChildren) (key : String) : Bool :=
  (cGet ch key).isSome

/-- JavaScript `Map.prototype.set`: replaces in place when the key is
present (keeping its position), otherwise appends at the end. -/
def cSet : FSChildren → String → FSNode → FSChildren
  | .nil, key, v => .cons key v .nil
  | .cons k w rest, key, v =>
    if k = key then .cons key v rest else .cons k w (cSet rest key v)

/-- JavaScript `Map.prototype.delete` (as a pure function). -/
def cDelete : FSChildren → String → FSChildren
  | .nil, _ => .nil
  | .cons k w rest, key =>
    if k = key then rest else .cons k w (cDelete rest key)

/-- JavaScript `Map.prototype.size`. -/
def cSize : FSChildren → Nat
  | .nil => 0
  | .cons _ _ rest => cSize rest + 1

/-- The values of the children map, in order (`Map.prototype.values`). -/
def cValues : FSChildren → List FSNode
  | .nil => []
  | .cons _ v rest => v :: cValues rest

/-- The keys of the children map, in order. -/
def cKeys : FSChildren → List String
  | .nil => []
  | .cons k _ rest => k :: cKeys rest

def FSNode.name : FSNode → String
  | .file n _ => n
  | .dir n _ => n

def FSNode.isDir : FSNode → Bool
  | .file _ _ => false
  | .dir _ _ => true

/-- `node.name = newName` (the rename performed by `mv` and `cp`). -/
def rename : FSNode → String → FSNode
  | .file _ c, n => .file n c
  | .dir _ ch, n => .dir n ch

/-- The walk of `VirtualFS.getNode` from an arbitrary node: follow each
segment as a child lookup, failing as soon as the current node is not a
directory or the child is missing. -/
def goNode : List String → FSNode → Option FSNode
  | [], node => some node
  | s :: rest, node =>
    match node with
    | .file _ _ => none
    | .dir _ ch =>
      match cGet ch s with
      | none => none
      | some child => goNode rest child

/-- `VirtualFS.getNode(path, cwd)`: resolve, then walk from the root. -/
def getNode (t : FSNode) (path : String) (cwd : String) : Option FSNode :=
  goNode (resolvePath path cwd) t

/-- `VirtualFS.getParent(path, cwd)`, returning the parent directory's name
and children. For an empty segment list the code returns `this.root`
unchecked; the root is a directory by construction, and a file at the root
position has no meaning, so that case yields `none` here only for a file.
Otherwise it walks `parts.slice(0, -1)` and requires the final node to be a
directory. -/
def getParent (t : FSNode) (parts : List String) : Option (String × FSChildren) :=
  match parts with
  | [] =>
    match t with
    | .dir n ch => some (n, ch)
    | .file _ _ => none
  | _ :: _ =>
    match goNode parts.dropLast t with
    | some (.dir n ch) => some (n, ch)
    | _ => none

/-- Rebuild the tree with the children of the directory reached by `parts`
transformed by `f`; any walk failure leaves the tree unchanged (the callers
guard with `getParent`, mirroring the mutation through a parent reference
in the code). -/
def modifyAt (f : FSChildren → FSChildren) : List String → FSNode → FSNode
  | [], node =>
    match node with
    | .dir n ch => .dir n (f ch)
    | .file n c => .file n c
  | s :: rest, node =>
    match node with
    | .file n c => .file n c
    | .dir n ch =>
      match cGet ch s with
      | none => .dir n ch
      | some child => .dir n (cSet ch s (modifyAt f rest child))

theorem goNode_append (p q : List String) :
    ∀ t : FSNode, goNode (p ++ q) t = (goNode p t).bind (goNode q) := by
  induction p with
  | nil => intro t; simp [goNode]
  | cons s rest ih =>
    intro t
    cases t with
    | file n c => simp [goNode]
    | dir n ch =>
      simp only [List.cons_append, goNode]
      cases cGet ch s with
      | none => simp
      | some child => exact ih child

theorem cGet_cSet_self : ∀ (ch : FSChildren) (k : String) (v : FSNode),
    cGet (cSet ch k v) k = some v
  | .nil, k, v => by simp [cSet, cGet]
  | .cons k' w rest, k, v => by
    by_cases h : k' = k
    · simp [cSet, h, cGet]
    · simp [cSet, h, cGet, cGet_cSet_self rest k v]

theorem cGet_cSet_ne : ∀ (ch : FSChildren) (k k' : String) (v : FSNode),
    k ≠ k' → cGet (cSet ch k v) k' = cGet ch k'
  | .nil, k, k', v, h => by simp [cSet, cGet, h]
  | .cons k2 w rest, k, k', v, h => by
    by_cases h2 : k2 = k
    · simp [cSet, h2, cGet, h]
    · simp [cSet, h2, cGet, cGet_cSet_ne rest k k' v h]

theorem cSet_cSet : ∀ (ch : FSChildren) (k : String) (v w : FSNode),
    cSet (cSet ch k v) k w = cSet ch k w
  | .nil, k, v, w => by simp [cSet]
  | .cons k' u rest, k, v, w => by
    by_cases h : k' = k
    · simp [cSet, h]
    · simp [cSet, h, cSet_cSet rest k v w]

/-- After `modifyAt` at a path that leads to a directory, the walk to that
path reaches the directory with `f` applied to its children. -/
theorem goNode_modifyAt (f : FSChildren → FSChildren) :
    ∀ (pp : List String) (t : FSNode) (n : String) (ch : FSChildren),
      goNode pp t = some (.dir n ch) →
      goNode pp (modifyAt f pp t) = some (.dir n (f ch)) := by
  intro pp
  induction pp with
  | nil =>
    intro t n ch h
    simp [goNode] at h
    subst h
    simp [goNode, modifyAt]
  | cons s rest ih =>
    intro t n ch h
    cases t with
    | file n2 c2 => simp [goNode] at h
    | dir n2 ch2 =>
      simp only [goNode] at h
      cases hg : cGet ch2 s with
      | none => rw [hg] at h; simp at h
      | some child =>
        rw [hg] at h
        simp only [modifyAt, hg, goNode, cGet_cSet_self]
        exact ih child n ch h

/-- `VirtualFS.list(path, cwd)`: missing path gives `[]`, a file gives the
one-element array with itself, a directory its children's values. -/
def list (t : FSNode) (path : String) (cwd : String) : List FSNode :=
  match getNode t path cwd with
  | none => []
  | some (.file n c) => [.file n c]
  | some (.dir _ ch) => cValues ch

/-- `VirtualFS.read(path, cwd)`: the content when the node is a file,
otherwise the `null` sentinel. -/
def read (t : FSNode) (path : String) (cwd : String) : Option String :=
  match getNode t path cwd with
  | some (.file _ c) => some c
  | _ => none

/-- `VirtualFS.write(path, content, cwd)`: fails when the path resolves to
no segments or the parent cannot be resolved to a directory; otherwise
unconditionally `set`s a fresh file node at the final segment (overwriting
whatever node was there, directory included). -/
def write (t : FSNode) (path content cwd : String) : Bool × FSNode :=
  let parts := resolvePath path cwd
  if parts = [] then (false, t)
  else
    match getParent t parts with
    | none => (false, t)
    | some _ =>
      let name := parts.getLastD ""
      (true, modifyAt (fun ch => cSet ch name (.file name content)) parts.dropLast t)

/-- The walk-and-create loop of `VirtualFS.mkdir`: descend along the
segments, entering existing directories, failing on an existing file and
creating fresh empty directories for missing segments. `none` is the
`return false` of the loop; the code mutates nothing before a failure
because a file can only be met before the first creation. -/
def mkdirGo : List String → FSNode → Option FSNode
  | [], node => some node
  | s :: rest, node =>
    match node with
    | .file _ _ => none
    | .dir n ch =>
      match cGet ch s with
      | some (.file _ _) => none
      | some (.dir n2 ch2) =>
        match mkdirGo rest (.dir n2 ch2) with
        | none => none
        | some sub => some (.dir n (cSet ch s sub))
      | none =>
        match mkdirGo rest (.dir s .nil) with
        | none => none
        | some sub => some (.dir n (cSet ch s sub))

/-- `VirtualFS.mkdir(path, cwd)`: `mkdir -p` along the resolved segments;
an empty segment list returns `false`. -/
def mkdir (t : FSNode) (path cwd : String) : Bool × FSNode :=
  let parts := resolvePath path cwd
  if parts = [] then (false, t)
  else
    match mkdirGo parts t with
    | none => (false, t)
    | some t2 => (true, t2)

/-- `VirtualFS.rm(path, cwd)`: refuses the root (empty segment list), a
missing parent, a missing node, and a non-empty directory; otherwise
deletes the final segment from its parent. -/
def rm (t : FSNode) (path cwd : String) : Bool × FSNode :=
  let parts := resolvePath path cwd
  if parts = [] then (false, t)
  else
    match getParent t parts with
    | none => (false, t)
    | some (_, pch) =>
      let name := parts.getLastD ""
      match cGet pch name with
      | none => (false, t)
      | some node =>
        match node with
        | .dir _ nch =>
          if cSize nch > 0 then (false, t)
          else (true, modifyAt (fun ch => cDelete ch name) parts.dropLast t)
        | .file _ _ => (true, modifyAt (fun ch => cDelete ch name) parts.dropLast t)

/-- `VirtualFS.rmdir` delegates to `rm`. -/
def rmdir (t : FSNode) (path cwd : String) : Bool × FSNode :=
  rm t path cwd

/-- `VirtualFS.mv(src, dst, cwd)`. The checks (source exists, destination
segments non-empty, destination parent exists, destination name free)
happen before any mutation; then the code deletes the final source segment
from the source parent and `set`s the renamed source node into the
destination parent object it looked up before the deletion.

When the source path resolves into a proper prefix of the destination
parent's path, that destination parent object sits inside the detached
subtree, so the insertion is invisible from the root: the observable store
is just the tree with the source subtree deleted.

When the source resolves to the empty segment list (the root), nothing is
detached (`delete(undefined)` is a no-op) and the code instead inserts the
root into one of its own reachable descendants, turning the store cyclic —
no finite tree represents that state (and the following `save()` overflows
the stack serializing it, which it swallows), so this function returns
`none` for that case. -/
def mv (t : FSNode) (src dst cwd : String) : Option (Bool × FSNode) :=
  match getNode t src cwd with
  | none => some (false, t)
  | some srcNode =>
    let dstParts := resolvePath dst cwd
    if dstParts = [] then some (false, t)
    else
      match getParent t dstParts with
      | none => some (false, t)
      | some (_, dstPch) =>
        let dstName := dstParts.getLastD ""
        if cHas dstPch dstName then some (false, t)
        else
          let srcParts := resolvePath src cwd
          match getParent t srcParts with
          | none => some (false, t)
          | some _ =>
            match srcParts with
            | [] => none
            | _ :: _ =>
              let srcName := srcParts.getLastD ""
              let t1 := modifyAt (fun ch => cDelete ch srcName) srcParts.dropLast t
              if srcParts.isPrefixOf dstParts.dropLast then some (true, t1)
              else
                some (true, modifyAt
                  (fun ch => cSet ch dstName (rename srcNode dstName))
                  dstParts.dropLast t1)

/-- `VirtualFS.cp(src, dst, cwd)`: same checks as `mv` minus the
detachment; the deep copy of the source node (taken before the insertion)
is renamed and `set` into the destination parent. A deep copy of a pure
value is the value itself. -/
def cp (t : FSNode) (src dst cwd : String) : Bool × FSNode :=
  match getNode t src cwd with
  | none => (false, t)
  | some srcNode =>
    let dstParts := resolvePath dst cwd
    if dstParts = [] then (false, t)
    else
      match getParent t dstParts with
      | none => (false, t)
      | some (_, dstPch) =>
        let dstName := dstParts.getLastD ""
        if cHas dstPch dstName then (false, t)
        else
          (true, modifyAt
            (fun ch => cSet ch dstName (rename srcNode dstName))
            dstParts.dropLast t)

/-- `VirtualFS.getAbsolutePath(path, cwd)`: `'/' + parts.join('/')`. -/
def getAbsolutePath (path cwd : String) : String :=
  "/" ++ String.intercalate "/" (resolvePath path cwd)

/-- `VirtualFS.exists(path, cwd)`. -/
def existsB (t : FSNode) (path cwd : String) : Bool :=
  (getNode t path cwd).isSome

/-- `VirtualFS.isDirectory(path, cwd)`. -/
def isDirectoryB (t : FSNode) (path cwd : String) : Bool :=
  match getNode t path cwd with
  | some (.dir _ _) => true
  | _ => false

/-- `VirtualFS.isFile(path, cwd)`. -/
def isFileB (t : FSNode) (path cwd : String) : Bool :=
  match getNode t path cwd with
  | some (.file _ _) => true
  | _ => false

mutual
/-- The plain-data persistence form produced by `VirtualFS.serialize`:
`{type:'file', name, content}` or `{type:'directory', name, children}`
with the children as an ordered list of `[name, data]` pairs. -/
inductive SerData where
  | file (name content : String)
  | dir (name : String) (children : SerList)
  deriving Repr, DecidableEq
/-- The ordered `[name, serialized-child]` pair list of a serialized
directory. -/
inductive SerList where
  | nil
  | cons (key : String) (data : SerData) (rest : SerList)
  deriving Repr, DecidableEq
end

mutual
/-- `VirtualFS.serialize(node)`. -/
def serialize : FSNode → SerData
  | .file n c => .file n c
  | .dir n ch => .dir n (serializeChildren ch)
/-- `Array.from(node.children.entries()).map(([name, child]) =>
[name, serialize(child)])`. -/
def serializeChildren : FSChildren → SerList
  | .nil => .nil
  | .cons k v rest => .cons k (serialize v) (serializeChildren rest)
end

/-- JavaScript `s || ''` for a string `s`: only the empty string is falsy,
so this is the identity on strings (used by `deserialize` for the
`data.content || ''` and `data.name || ''` defaults). -/
def jsOrEmpty (s : String) : String :=
  if s = "" then "" else s

mutual
/-- `VirtualFS.deserialize(data)` on well-typed plain data (the image of
`serialize`; the code's tolerance of missing or malformed `children` and
`content` fields concerns untyped JSON and has no counterpart in the typed
`SerData`). -/
def deserialize : SerData → FSNode
  | .file n c => .file n (jsOrEmpty c)
  | .dir n ch => .dir (jsOrEmpty n) (deserializeChildren ch)
/-- The `for (const [name, childData] of data.children)` loop: each pair is
`set` into a fresh map in order. -/
def deserializeChildren : SerList → FSChildren
  | .nil => .nil
  | .cons k d rest => .cons k (deserialize d) (deserializeChildren rest)
end

theorem jsOrEmpty_eq (s : String) : jsOrEmpty s = s := by
  unfold jsOrEmpty
  split <;> simp_all

mutual
theorem deserialize_serialize : ∀ t : FSNode, deserialize (serialize t) = t
  | .file n c => by
    simp [serialize, deserialize, jsOrEmpty_eq]
  | .dir n ch => by
    simp [serialize, deserialize, jsOrEmpty_eq,
      deserializeChildren_serializeChildren ch]
theorem deserializeChildren_serializeChildren :
    ∀ ch : FSChildren, deserializeChildren (serializeChildren ch) = ch
  | .nil => rfl
  | .cons k v rest => by
    simp [serializeChildren, deserializeChildren, deserialize_serialize v,
      deserializeChildren_serializeChildren rest]
end

/-- C1: serializer round-trip. For every tree — hence in particular every
tree built by any sequence of `mkdir`/`write`/`mv`/`cp` calls, with any
file contents, empty directories and arbitrarily deep nesting —
`deserialize(serialize(tree))` is structurally and content-equal to the
tree. -/
theorem serialize_roundtrip (t : FSNode) :
    deserialize (serialize t) = t :=
  deserialize_serialize t

theorem dropLast_append_getLastD :
    ∀ l : List String, l ≠ [] → l.dropLast ++ [l.getLastD ""] = l
  | [_], _ => rfl
  | a :: b :: rest, _ => by
    have ih := dropLast_append_getLastD (b :: rest) (by simp)
    simpa [List.dropLast] using congrArg (List.cons a) ih

theorem goNode_single (x : String) (node : FSNode) :
    goNode [x] node =
      (match node with
       | .file _ _ => none
       | .dir _ ch => cGet ch x) := by
  cases node with
  | file n c => simp [goNode]
  | dir n ch =>
    simp only [goNode]
    cases cGet ch x <;> simp [goNode]

/-- Walking a non-empty path factors through `getParent` and a final child
lookup. -/
theorem goNode_eq_parent_lookup (t : FSNode) (parts : List String)
    (h : parts ≠ []) :
    goNode parts t =
      (match getParent t parts with
       | none => none
       | some (_, pch) => cGet pch (parts.getLastD "")) := by
  obtain ⟨p, ps, rfl⟩ := List.exists_cons_of_ne_nil h
  have hsplit := dropLast_append_getLastD (p :: ps) h
  conv_lhs => rw [← hsplit]
  rw [goNode_append]
  unfold getParent
  cases hw : goNode (p :: ps).dropLast t with
  | none => simp
  | some node =>
    cases node with
    | file n c => simp [goNode_single]
    | dir n ch => simp [goNode_single]

/-- After a `modifyAt` at the parent path, the child lookup at the final
segment sees the transformed children. -/
theorem goNode_modify_parent (f : FSChildren → FSChildren) (t : FSNode)
    (parts : List String) (n : String) (ch : FSChildren) (x : String)
    (h : parts ≠ []) (hp : getParent t parts = some (n, ch)) :
    goNode (parts.dropLast ++ [x]) (modifyAt f parts.dropLast t) =
      cGet (f ch) x := by
  obtain ⟨p, ps, rfl⟩ := List.exists_cons_of_ne_nil h
  have hw : goNode (p :: ps).dropLast t = some (.dir n ch) := by
    unfold getParent at hp
    cases hg : goNode (p :: ps).dropLast t with
    | none => rw [hg] at hp; simp at hp
    | some node =>
      rw [hg] at hp
      cases node with
      | file n2 c2 => simp at hp
      | dir n2 ch2 =>
        simp only [Option.some.injEq, Prod.mk.injEq] at hp
        rw [hp.1, hp.2]
  have hmod := goNode_modifyAt f (p :: ps).dropLast t n ch hw
  rw [goNode_append, hmod]
  simp [goNode_single]

/-- From a successful walk of a non-empty path, the parent exists and its
children contain the node at the final segment. -/
theorem goNode_some_getParent (t : FSNode) (parts : List String)
    (node : FSNode) (h : parts ≠ []) (hw : goNode parts t = some node) :
    ∃ pn pch, getParent t parts = some (pn, pch) ∧
      cGet pch (parts.getLastD "") = some node := by
  rw [goNode_eq_parent_lookup t parts h] at hw
  cases hp : getParent t parts with
  | none => rw [hp] at hw; simp at hw
  | some pr =>
    rw [hp] at hw
    exact ⟨pr.1, pr.2, by rw [← hp], hw⟩

mutual
/-- The well-formedness invariant maintained by the code's use of `Map`:
sibling keys are unique (a JavaScript `Map` cannot hold a key twice). -/
def wfNode : FSNode → Bool
  | .file _ _ => true
  | .dir _ ch => wfChildren ch
/-- Children are well-formed when no key repeats and each child is
well-formed. -/
def wfChildren : FSChildren → Bool
  | .nil => true
  | .cons k v rest => !cHas rest k && wfNode v && wfChildren rest
end

theorem cGet_wfNode : ∀ (ch : FSChildren) (k : String) (v : FSNode),
    wfChildren ch = true → cGet ch k = some v → wfNode v = true
  | .nil, _, _, _, hg => by simp [cGet] at hg
  | .cons k' w rest, k, v, hwf, hg => by
    simp only [wfChildren, Bool.and_eq_true] at hwf
    by_cases h : k' = k
    · simp [cGet, h] at hg
      rw [← hg]
      exact hwf.1.2
    · simp [cGet, h] at hg
      exact cGet_wfNode rest k v hwf.2 hg

theorem goNode_wfNode (parts : List String) :
    ∀ (t node : FSNode), wfNode t = true →
      goNode parts t = some node → wfNode node = true := by
  induction parts with
  | nil =>
    intro t node hwf hg
    simp [goNode] at hg
    rw [← hg]; exact hwf
  | cons s rest ih =>
    intro t node hwf hg
    cases t with
    | file n c => simp [goNode] at hg
    | dir n ch =>
      simp only [goNode] at hg
      cases hc : cGet ch s with
      | none => rw [hc] at hg; simp at hg
      | some child =>
        rw [hc] at hg
        exact ih child node (cGet_wfNode ch s child hwf hc) hg

theorem cGet_cDelete_self : ∀ (ch : FSChildren) (k : String),
    wfChildren ch = true → cGet (cDelete ch k) k = none
  | .nil, _, _ => by simp [cDelete, cGet]
  | .cons k' v rest, k, hwf => by
    simp only [wfChildren, Bool.and_eq_true] at hwf
    by_cases h : k' = k
    · simp only [cDelete, if_pos h]
      have := hwf.1.1
      simp only [cHas, Bool.not_eq_true'] at this
      rw [h] at this
      cases hg : cGet rest k with
      | none => rfl
      | some w => rw [hg] at this; simp at this
    · simp only [cDelete, if_neg h, cGet, if_neg h]
      exact cGet_cDelete_self rest k hwf.2

/-- A store holding one directory `/d`: the state after `mkdir("/d")` on a
fresh root. -/
def dTree : FSNode := .dir "" (.cons "d" (.dir "d" .nil) .nil)

/-- C2, counterexample. The claim says `write` fails whenever a directory
node already exists at the path. In the code, `write` never inspects the
node at the path itself — only the parent — so on a store with directory
`/d`, `write("/d", "x", "/")` returns `true` and replaces the directory
with a file whose content is `"x"`. -/
theorem write_over_directory_cex :
    isDirectoryB dTree "/d" "/" = true ∧
    (write dTree "/d" "x" "/").1 = true ∧
    isFileB (write dTree "/d" "x" "/").2 "/d" "/" = true ∧
    read (write dTree "/d" "x" "/").2 "/d" "/" = some "x" := by
  decide

/-- C2, amended. `write(path, content, cwd)` fails exactly when the path
resolves to no segments or the parent cannot be resolved to an existing
directory, and then the tree is unchanged; when a directory node exists at
a path with at least one segment, `write` succeeds and replaces the
directory with a file holding the new content (creation over a sibling of
a different type does NOT fail). -/
theorem write_contract (t : FSNode) (path content cwd : String) :
    ((write t path content cwd).1 = false ↔
      (resolvePath path cwd = [] ∨ getParent t (resolvePath path cwd) = none)) ∧
    ((write t path content cwd).1 = false → (write t path content cwd).2 = t) ∧
    (∀ n ch, resolvePath path cwd ≠ [] →
      goNode (resolvePath path cwd) t = some (.dir n ch) →
      (write t path content cwd).1 = true ∧
      goNode (resolvePath path cwd) (write t path content cwd).2 =
        some (.file ((resolvePath path cwd).getLastD "") content)) := by
  by_cases hnil : resolvePath path cwd = []
  · refine ⟨by simp [write, hnil], by simp [write, hnil], ?_⟩
    intro n ch hne _
    exact absurd hnil hne
  · cases hp : getParent t (resolvePath path cwd) with
    | none =>
      refine ⟨by simp [write, hnil, hp], by simp [write, hnil, hp], ?_⟩
      intro n ch hne hdir
      obtain ⟨pn, pch, hp2, _⟩ := goNode_some_getParent t _ _ hne hdir
      rw [hp] at hp2
      exact absurd hp2 (by simp)
    | some pr =>
      refine ⟨by simp [write, hnil, hp], by simp [write, hnil, hp], ?_⟩
      intro n ch hne hdir
      obtain ⟨pn, pch, hp2, hcg⟩ := goNode_some_getParent t _ _ hne hdir
      refine ⟨by simp [write, hnil, hp], ?_⟩
      have hkey := goNode_modify_parent
        (fun ch2 => cSet ch2 ((resolvePath path cwd).getLastD "")
          (.file ((resolvePath path cwd).getLastD "") content))
        t (resolvePath path cwd) pn pch ((resolvePath path cwd).getLastD "")
        hne hp2
      have hsplit := dropLast_append_getLastD (resolvePath path cwd) hne
      have hw2 : (write t path content cwd).2 =
          modifyAt (fun ch2 => cSet ch2 ((resolvePath path cwd).getLastD "")
            (.file ((resolvePath path cwd).getLastD "") content))
            (resolvePath path cwd).dropLast t := by
        simp [write, hnil, hp]
      rw [hsplit] at hkey
      rw [hw2, hkey]
      exact cGet_cSet_self pch _ _

/-- A concrete instance of `write_contract` with its hypotheses discharged
on the store `dTree` at the directory path `/d`. -/
theorem write_contract_witness :
    resolvePath "/d" "/" ≠ [] ∧
    goNode (resolvePath "/d" "/") dTree = some (.dir "d" .nil) ∧
    ((write dTree "/d" "x" "/").1 = true ∧
      goNode (resolvePath "/d" "/") (write dTree "/d" "x" "/").2 =
        some (.file ((resolvePath "/d" "/").getLastD "") "x")) :=
  ⟨by decide, by decide,
    (write_contract dTree "/d" "x" "/").2.2 "d" .nil (by decide) (by decide)⟩

/-- Descending into freshly created directories never fails: after the
first missing segment, `mkdir`'s loop only creates. -/
theorem mkdirGo_fresh_some :
    ∀ (parts : List String) (s : String),
      ∃ t2, mkdirGo parts (.dir s .nil) = some t2 := by
  intro parts
  induction parts with
  | nil => intro s; exact ⟨.dir s .nil, rfl⟩
  | cons s2 rest ih =>
    intro s
    obtain ⟨sub, hsub⟩ := ih s2
    exact ⟨.dir s (cSet .nil s2 sub), by simp [mkdirGo, cGet, hsub]⟩

/-- The `mkdir` loop fails from a directory exactly when some prefix of the
remaining segments reaches an existing file. -/
theorem mkdirGo_none_iff :
    ∀ (parts : List String) (n : String) (ch : FSChildren),
      mkdirGo parts (.dir n ch) = none ↔
        ∃ k < parts.length, ∃ fn fc,
          goNode (parts.take (k + 1)) (.dir n ch) = some (.file fn fc) := by
  intro parts
  induction parts with
  | nil =>
    intro n ch
    simp [mkdirGo]
  | cons s rest ih =>
    intro n ch
    cases hc : cGet ch s with
    | none =>
      obtain ⟨sub, hsub⟩ := mkdirGo_fresh_some rest s
      constructor
      · intro hnone
        simp [mkdirGo, hc, hsub] at hnone
      · rintro ⟨k, hk, fn, fc, hfile⟩
        rw [List.take_succ_cons] at hfile
        simp [goNode, hc] at hfile
    | some child =>
      cases child with
      | file fn fc =>
        constructor
        · intro _
          exact ⟨0, by simp, fn, fc, by simp [goNode, hc]⟩
        · intro _
          simp [mkdirGo, hc]
      | dir n2 ch2 =>
        have hstep : ∀ k, goNode ((s :: rest).take (k + 1)) (.dir n ch) =
            goNode (rest.take k) (.dir n2 ch2) := by
          intro k
          rw [List.take_succ_cons]
          simp [goNode, hc]
        constructor
        · intro hnone
          have hrec : mkdirGo rest (.dir n2 ch2) = none := by
            by_contra hne
            obtain ⟨sub, hsub⟩ := Option.ne_none_iff_exists'.mp hne
            simp [mkdirGo, hc, hsub] at hnone
          obtain ⟨k, hk, fn, fc, hfile⟩ := (ih n2 ch2).mp hrec
          exact ⟨k + 1, by simpa using Nat.succ_lt_succ hk, fn, fc,
            by rw [hstep (k + 1)]; exact hfile⟩
        · rintro ⟨k, hk, fn, fc, hfile⟩
          cases k with
          | zero =>
            rw [hstep 0] at hfile
            simp [goNode] at hfile
          | succ j =>
            rw [hstep (j + 1)] at hfile
            have hrec : mkdirGo rest (.dir n2 ch2) = none :=
              (ih n2 ch2).mpr ⟨j, by simpa using Nat.lt_of_succ_lt_succ hk,
                fn, fc, hfile⟩
            simp [mkdirGo, hc, hrec]

/-- After a successful `mkdir` walk from a directory, every prefix of the
segments resolves to a directory in the result. -/
theorem mkdirGo_take_dir :
    ∀ (parts : List String) (n : String) (ch : FSChildren) (t2 : FSNode),
      mkdirGo parts (.dir n ch) = some t2 →
      ∀ k, k ≤ parts.length →
        ∃ n2 ch2, goNode (parts.take k) t2 = some (.dir n2 ch2) := by
  intro parts
  induction parts with
  | nil =>
    intro n ch t2 hgo k hk
    simp [mkdirGo] at hgo
    have hk0 : k = 0 := Nat.le_zero.mp (by simpa using hk)
    subst hk0
    exact ⟨n, ch, by simp [goNode, ← hgo]⟩
  | cons s rest ih =>
    intro n ch t2 hgo k hk
    cases hc : cGet ch s with
    | none =>
      obtain ⟨sub, hsub⟩ := mkdirGo_fresh_some rest s
      have ht2 : t2 = .dir n (cSet ch s sub) := by
        simp [mkdirGo, hc, hsub] at hgo
        exact hgo.symm
      cases k with
      | zero => exact ⟨n, cSet ch s sub, by simp [goNode, ht2]⟩
      | succ j =>
        obtain ⟨n2, ch2, hsubdir⟩ := ih s .nil sub hsub j (by simpa using hk)
        refine ⟨n2, ch2, ?_⟩
        rw [List.take_succ_cons, ht2]
        simpa [goNode, cGet_cSet_self] using hsubdir
    | some child =>
      cases child with
      | file fn fc => simp [mkdirGo, hc] at hgo
      | dir nd chd =>
        cases hrec : mkdirGo rest (.dir nd chd) with
        | none => simp [mkdirGo, hc, hrec] at hgo
        | some sub =>
          have ht2 : t2 = .dir n (cSet ch s sub) := by
            simp [mkdirGo, hc, hrec] at hgo
            exact hgo.symm
          cases k with
          | zero => exact ⟨n, cSet ch s sub, by simp [goNode, ht2]⟩
          | succ j =>
            obtain ⟨n2, ch2, hsubdir⟩ := ih nd chd sub hrec j (by simpa using hk)
            refine ⟨n2, ch2, ?_⟩
            rw [List.take_succ_cons, ht2]
            simpa [goNode, cGet_cSet_self] using hsubdir

/-- Running the `mkdir` loop again over a tree it just produced succeeds
and changes nothing. -/
theorem mkdirGo_idem :
    ∀ (parts : List String) (t t2 : FSNode),
      mkdirGo parts t = some t2 → mkdirGo parts t2 = some t2 := by
  intro parts
  induction parts with
  | nil =>
    intro t t2 hgo
    simp [mkdirGo]
  | cons s rest ih =>
    intro t t2 hgo
    cases t with
    | file n c => simp [mkdirGo] at hgo
    | dir n ch =>
      cases hc : cGet ch s with
      | none =>
        obtain ⟨sub, hsub⟩ := mkdirGo_fresh_some rest s
        have ht2 : t2 = .dir n (cSet ch s sub) := by
          simp [mkdirGo, hc, hsub] at hgo
          exact hgo.symm
        obtain ⟨ns, chs, hdir0⟩ := mkdirGo_take_dir rest s .nil sub hsub 0 (by simp)
        have hsubdir : sub = .dir ns chs := by simpa [goNode] using hdir0
        have hrec2 : mkdirGo rest sub = some sub := ih _ _ hsub
        rw [ht2]
        rw [hsubdir] at hrec2 ⊢
        simp [mkdirGo, cGet_cSet_self, hrec2, cSet_cSet]
      | some child =>
        cases child with
        | file fn fc => simp [mkdirGo, hc] at hgo
        | dir nd chd =>
          cases hrec : mkdirGo rest (.dir nd chd) with
          | none => simp [mkdirGo, hc, hrec] at hgo
          | some sub =>
            have ht2 : t2 = .dir n (cSet ch s sub) := by
              simp [mkdirGo, hc, hrec] at hgo
              exact hgo.symm
            obtain ⟨ns, chs, hdir0⟩ :=
              mkdirGo_take_dir rest nd chd sub hrec 0 (by simp)
            have hsubdir : sub = .dir ns chs := by simpa [goNode] using hdir0
            have hrec2 : mkdirGo rest sub = some sub := ih _ _ hrec
            rw [ht2]
            rw [hsubdir] at hrec2 ⊢
            simp [mkdirGo, cGet_cSet_self, hrec2, cSet_cSet]

/-- Re-`set`ting a key to the value it already holds leaves the map
unchanged. -/
theorem cSet_cGet_eq : ∀ (ch : FSChildren) (k : String) (v : FSNode),
    cGet ch k = some v → cSet ch k v = ch
  | .nil, k, v, hg => by simp [cGet] at hg
  | .cons k2 w rest, k, v, hg => by
    by_cases h : k2 = k
    · simp [cGet, h] at hg
      simp [cSet, h, hg]
    · simp [cGet, h] at hg
      simp [cSet, h, cSet_cGet_eq rest k v hg]

/-- When every prefix of the segments already resolves to a directory, the
`mkdir` loop only walks existing directories and returns the tree
unchanged. -/
theorem mkdirGo_noop :
    ∀ (parts : List String) (n : String) (ch : FSChildren),
      (∀ k, k < parts.length → ∃ dn dch,
        goNode (parts.take (k + 1)) (.dir n ch) = some (.dir dn dch)) →
      mkdirGo parts (.dir n ch) = some (.dir n ch)
  | [], n, ch, _ => rfl
  | s :: rest, n, ch, hall => by
    obtain ⟨dn, dch, h0⟩ := hall 0 (by simp)
    have hc : cGet ch s = some (.dir dn dch) := by
      rw [List.take_succ_cons, List.take_zero, goNode_single] at h0
      exact h0
    have hrest : ∀ k, k < rest.length → ∃ dn2 dch2,
        goNode (rest.take (k + 1)) (.dir dn dch) = some (.dir dn2 dch2) := by
      intro k hk
      obtain ⟨dn2, dch2, hkk⟩ := hall (k + 1) (by simpa using Nat.succ_lt_succ hk)
      refine ⟨dn2, dch2, ?_⟩
      rw [List.take_succ_cons] at hkk
      simpa [goNode, hc] using hkk
    have hrec := mkdirGo_noop rest dn dch hrest
    simp [mkdirGo, hc, hrec, cSet_cGet_eq ch s _ hc]

/-- The empty root directory (a fresh store before `init` adds
`/sandbox`). -/
def rootNil : FSNode := .dir "" .nil

/-- C4, counterexample. The claim says `mkdir` fails exactly when some
existing segment along the path is a file, and succeeds as a no-op when
every segment already exists as a directory. For the path `/`, which
resolves to no segments at all (as does any path like `..` or `.`), every
segment trivially exists as a directory and none is a file, yet
`mkdir("/", "/")` returns `false` (the code rejects an empty resolved
segment list before its walk). -/
theorem mkdir_root_cex :
    resolvePath "/" "/" = [] ∧
    (mkdir rootNil "/" "/").1 = false ∧
    (mkdir rootNil "/" "/").2 = rootNil := by
  decide

/-- C4, amended. For every path whose resolution has at least one segment
(the code rejects an empty resolved list outright, e.g. for `/`): `mkdir`
fails exactly when some prefix of the resolved segments reaches an
existing file; a failed call leaves the tree unchanged; after a successful
call every prefix of the resolved segments (including the full path) is a
directory — all missing intermediate directories are created; repeating
the call returns the same flag and the same tree (idempotence); and when
every segment already exists as a directory, `mkdir` succeeds with the
tree exactly unchanged (no-op success). -/
theorem mkdir_contract (rn : String) (rch : FSChildren) (path cwd : String)
    (hne : resolvePath path cwd ≠ []) :
    ((mkdir (.dir rn rch) path cwd).1 = false ↔
      ∃ k < (resolvePath path cwd).length, ∃ fn fc,
        goNode ((resolvePath path cwd).take (k + 1)) (.dir rn rch) =
          some (.file fn fc)) ∧
    ((mkdir (.dir rn rch) path cwd).1 = false →
      (mkdir (.dir rn rch) path cwd).2 = .dir rn rch) ∧
    ((mkdir (.dir rn rch) path cwd).1 = true →
      ∀ k ≤ (resolvePath path cwd).length, ∃ n2 ch2,
        goNode ((resolvePath path cwd).take k) (mkdir (.dir rn rch) path cwd).2 =
          some (.dir n2 ch2)) ∧
    mkdir (mkdir (.dir rn rch) path cwd).2 path cwd =
      ((mkdir (.dir rn rch) path cwd).1, (mkdir (.dir rn rch) path cwd).2) ∧
    ((∀ k, k < (resolvePath path cwd).length → ∃ dn dch,
        goNode ((resolvePath path cwd).take (k + 1)) (.dir rn rch) =
          some (.dir dn dch)) →
      mkdir (.dir rn rch) path cwd = (true, .dir rn rch)) := by
  cases hgo : mkdirGo (resolvePath path cwd) (.dir rn rch) with
  | none =>
    refine ⟨?_, ?_, ?_, ?_, ?_⟩
    · simp only [mkdir, if_neg hne, hgo]
      simpa using (mkdirGo_none_iff (resolvePath path cwd) rn rch).mp hgo
    · intro _
      simp [mkdir, hne, hgo]
    · intro hfl
      simp [mkdir, hne, hgo] at hfl
    · simp [mkdir, hne, hgo]
    · intro hall
      have hnoop := mkdirGo_noop (resolvePath path cwd) rn rch hall
      rw [hgo] at hnoop
      simp at hnoop
  | some t2 =>
    refine ⟨?_, ?_, ?_, ?_, ?_⟩
    · simp only [mkdir, if_neg hne, hgo]
      constructor
      · intro hfl
        simp at hfl
      · intro hex
        have := (mkdirGo_none_iff (resolvePath path cwd) rn rch).mpr hex
        rw [hgo] at this
        simp at this
    · intro hfl
      simp [mkdir, hne, hgo] at hfl
    · intro _ k hk
      have h2 : (mkdir (.dir rn rch) path cwd).2 = t2 := by
        simp [mkdir, hne, hgo]
      rw [h2]
      exact mkdirGo_take_dir (resolvePath path cwd) rn rch t2 hgo k hk
    · have hidem := mkdirGo_idem (resolvePath path cwd) _ _ hgo
      simp [mkdir, hne, hgo, hidem]
    · intro hall
      have hnoop := mkdirGo_noop (resolvePath path cwd) rn rch hall
      rw [hgo] at hnoop
      simp only [Option.some.injEq] at hnoop
      simp [mkdir, hne, hgo, hnoop]

/-- A concrete instance of `mkdir_contract` with its hypothesis discharged
at `mkdir("/a/b", "/")` on the empty root, plus the no-op conjunct applied
at `mkdir("/d", "/")` on a store where `/d` already exists as a directory:
the call returns `true` with the tree exactly unchanged. -/
theorem mkdir_contract_witness :
    (resolvePath "/a/b" "/" ≠ [] ∧
    (((mkdir (.dir "" .nil) "/a/b" "/").1 = false ↔
      ∃ k < (resolvePath "/a/b" "/").length, ∃ fn fc,
        goNode ((resolvePath "/a/b" "/").take (k + 1)) (.dir "" .nil) =
          some (.file fn fc)) ∧
    ((mkdir (.dir "" .nil) "/a/b" "/").1 = false →
      (mkdir (.dir "" .nil) "/a/b" "/").2 = .dir "" .nil) ∧
    ((mkdir (.dir "" .nil) "/a/b" "/").1 = true →
      ∀ k ≤ (resolvePath "/a/b" "/").length, ∃ n2 ch2,
        goNode ((resolvePath "/a/b" "/").take k) (mkdir (.dir "" .nil) "/a/b" "/").2 =
          some (.dir n2 ch2)) ∧
    mkdir (mkdir (.dir "" .nil) "/a/b" "/").2 "/a/b" "/" =
      ((mkdir (.dir "" .nil) "/a/b" "/").1, (mkdir (.dir "" .nil) "/a/b" "/").2) ∧
    ((∀ k, k < (resolvePath "/a/b" "/").length → ∃ dn dch,
        goNode ((resolvePath "/a/b" "/").take (k + 1)) (.dir "" .nil) =
          some (.dir dn dch)) →
      mkdir (.dir "" .nil) "/a/b" "/" = (true, .dir "" .nil)))) ∧
    mkdir dTree "/d" "/" = (true, dTree) :=
  ⟨⟨by decide, mkdir_contract "" .nil "/a/b" "/" (by decide)⟩,
    (mkdir_contract "" (.cons "d" (.dir "d" .nil) .nil) "/d" "/"
        (by decide)).2.2.2.2
      (by
        intro k hk
        have hlen : (resolvePath "/d" "/").length = 1 := by decide
        have hk0 : k = 0 := by omega
        subst hk0
        exact ⟨"d", FSChildren.nil, by decide⟩)⟩

theorem cSize_pos_iff : ∀ ch : FSChildren, cSize ch > 0 ↔ ch ≠ .nil
  | .nil => by simp [cSize]
  | .cons k v rest => by simp [cSize]

/-- The store after `mkdir("/d"); write("/d/f", "x")` on a fresh root: the
claim's concrete non-empty-directory scenario. -/
def dScenario : FSNode :=
  (write (mkdir rootNil "/d" "/").2 "/d/f" "x" "/").2

/-- C5: `rm` failure cases and atomicity. `rm(path, cwd)` fails exactly
when the path resolves to the root (empty segment list), the node is not
found, or the node is a non-empty directory; a failing call leaves the
tree unchanged; and in the claim's concrete scenario — after
`mkdir("/d")` and `write("/d/f", "x")` — `rm("/d", "/")` returns `false`
with `/d` still present and `/d/f` still holding `"x"`. -/
theorem rm_contract (t : FSNode) (path cwd : String) :
    ((rm t path cwd).1 = false ↔
      (resolvePath path cwd = [] ∨ getNode t path cwd = none ∨
        ∃ n ch, getNode t path cwd = some (.dir n ch) ∧ ch ≠ .nil)) ∧
    ((rm t path cwd).1 = false → (rm t path cwd).2 = t) ∧
    (rm dScenario "/d" "/" = (false, dScenario) ∧
      existsB dScenario "/d" "/" = true ∧
      read dScenario "/d/f" "/" = some "x") := by
  refine ⟨?_, ?_, by decide, by decide, by decide⟩
  · by_cases hnil : resolvePath path cwd = []
    · simp [rm, hnil]
    · have hlook := goNode_eq_parent_lookup t (resolvePath path cwd) hnil
      cases hp : getParent t (resolvePath path cwd) with
      | none =>
        have hnode : getNode t path cwd = none := by
          unfold getNode
          rw [hlook, hp]
        simp only [rm, if_neg hnil, hp]
        simp [hnode, hnil]
      | some pr =>
        obtain ⟨pn, pch⟩ := pr
        have hnode : getNode t path cwd =
            cGet pch ((resolvePath path cwd).getLastD "") := by
          unfold getNode
          rw [hlook, hp]
        cases hc : cGet pch ((resolvePath path cwd).getLastD "") with
        | none =>
          rw [hc] at hnode
          simp only [rm, if_neg hnil, hp, hc]
          simp [hnode, hnil]
        | some node =>
          rw [hc] at hnode
          cases node with
          | file fn fc =>
            simp only [rm, if_neg hnil, hp, hc]
            simp [hnode, hnil]
          | dir dn dch =>
            by_cases hsz : cSize dch > 0
            · have hne2 : dch ≠ .nil := (cSize_pos_iff dch).mp hsz
              simp only [rm, if_neg hnil, hp, hc]
              rw [if_pos hsz]
              exact iff_of_true rfl (Or.inr (Or.inr ⟨dn, dch, hnode, hne2⟩))
            · have heq : dch = .nil := by
                by_contra hne2
                exact hsz ((cSize_pos_iff dch).mpr hne2)
              subst heq
              simp only [rm, if_neg hnil, hp, hc]
              simp [cSize, hnode, hnil]
  · intro hfl
    by_cases hnil : resolvePath path cwd = []
    · simp [rm, hnil]
    · cases hp : getParent t (resolvePath path cwd) with
      | none => simp [rm, hnil, hp]
      | some pr =>
        obtain ⟨pn, pch⟩ := pr
        cases hc : cGet pch ((resolvePath path cwd).getLastD "") with
        | none => simp only [rm, if_neg hnil, hp, hc]
        | some node =>
          cases node with
          | file fn fc =>
            simp only [rm, if_neg hnil, hp, hc] at hfl
            simp at hfl
          | dir dn dch =>
            by_cases hsz : cSize dch > 0
            · simp only [rm, if_neg hnil, hp, hc]
              simp [hsz]
            · simp only [rm, if_neg hnil, hp, hc] at hfl
              simp [hsz] at hfl

/-- A concrete instance of `rm_contract`: its unchanged-on-failure
implication applied at `rm("/x", "/")` on the empty root, the premise
discharged by evaluation. -/
theorem rm_contract_witness : (rm rootNil "/x" "/").2 = rootNil :=
  (rm_contract rootNil "/x" "/").2.1 (by decide)

/-- A store with two files `/a` and `/b` at the root. -/
def abTree : FSNode :=
  .dir "" (.cons "a" (.file "a" "1") (.cons "b" (.file "b" "2") .nil))

/-- C6: `mv` destination collision is atomic. Whenever a node already
exists at `dst`, or `src` is not found, or `dst`'s parent is not found,
`mv(src, dst, cwd)` returns `false` and the tree is exactly as before the
call (all of these checks run before any mutation), so neither the node at
`src` nor the node at `dst` is altered. -/
theorem mv_collision_atomic (t : FSNode) (src dst cwd : String)
    (h : getNode t dst cwd ≠ none ∨ getNode t src cwd = none ∨
      getParent t (resolvePath dst cwd) = none) :
    mv t src dst cwd = some (false, t) := by
  cases hs : getNode t src cwd with
  | none => simp [mv, hs]
  | some srcNode =>
    by_cases hd0 : resolvePath dst cwd = []
    · simp [mv, hs, hd0]
    · cases hp : getParent t (resolvePath dst cwd) with
      | none => simp [mv, hs, hd0, hp]
      | some pr =>
        obtain ⟨pn, pch⟩ := pr
        have hdst : getNode t dst cwd ≠ none := by
          rcases h with h | h | h
          · exact h
          · rw [hs] at h; exact absurd h (by simp)
          · rw [hp] at h; exact absurd h (by simp)
        have hlook := goNode_eq_parent_lookup t (resolvePath dst cwd) hd0
        rw [hp] at hlook
        have hhas : cHas pch ((resolvePath dst cwd).getLastD "") = true := by
          unfold getNode at hdst
          rw [hlook] at hdst
          unfold cHas
          exact Option.isSome_iff_ne_none.mpr hdst
        simp only [mv, hs, if_neg hd0, hp]
        rw [if_pos hhas]

/-- A concrete instance of `mv_collision_atomic`: `mv("/a", "/b", "/")` on
a store where `/b` already exists, the collision premise discharged by
evaluation. -/
theorem mv_collision_atomic_witness :
    mv abTree "/a" "/b" "/" = some (false, abTree) :=
  mv_collision_atomic abTree "/a" "/b" "/" (Or.inl (by decide))

theorem isPrefixOf_self_append :
    ∀ (a r : List String), a.isPrefixOf (a ++ r) = true := by
  intro a r
  induction a with
  | nil => simp [List.isPrefixOf]
  | cons x xs ih => simp [List.isPrefixOf, ih]

/-- A successful `getParent` on a non-empty segment list is exactly a walk
to the dropped-last path ending in a directory. -/
theorem getParent_some_goNode (t : FSNode) (parts : List String)
    (n : String) (ch : FSChildren) (hne : parts ≠ [])
    (hp : getParent t parts = some (n, ch)) :
    goNode parts.dropLast t = some (.dir n ch) := by
  obtain ⟨p, ps, rfl⟩ := List.exists_cons_of_ne_nil hne
  unfold getParent at hp
  cases hg : goNode (p :: ps).dropLast t with
  | none => rw [hg] at hp; simp at hp
  | some node =>
    rw [hg] at hp
    cases node with
    | file n2 c2 => simp at hp
    | dir n2 ch2 =>
      simp only [Option.some.injEq, Prod.mk.injEq] at hp
      rw [hp.1, hp.2]

/-- C9, counterexample. The implicit claim quantifies over every store in
which `src` resolves to an existing directory and `dst` to a fresh path
strictly inside it with an existing parent; `src = "/"` satisfies all of
that (the root is an existing directory, `/x` is strictly inside it, its
parent is the root itself and `x` is free), but there `mv` detaches
nothing — the deletion at the root uses the out-of-range last segment
(`undefined`) and is a no-op — and instead inserts the still-attached root
into its own reachable child map, making the store cyclic: no finite tree
is the post-state (the embedded `mv` returns `none` for it), `mv` cannot
return `true` with the subtree unreachable, and `exists(src)` could never
become `false` anyway since walking zero segments always finds the root. -/
theorem mv_into_subtree_cex :
    getNode rootNil "/" "/" = some rootNil ∧
    resolvePath "/x" "/" = resolvePath "/" "/" ++ ["x"] ∧
    getParent rootNil (resolvePath "/x" "/") = some ("", .nil) ∧
    existsB rootNil "/x" "/" = false ∧
    mv rootNil "/" "/x" "/" = none := by
  decide

/-- C9, amended. For every well-formed store and every `src` that resolves
to an existing directory other than the root: if `dst` resolves strictly
inside the subtree at `src` (its segments extend `src`'s), `dst`'s parent
exists and `dst`'s final segment does not yet exist, then `mv` returns
`true`, the observable store is the original tree with the source subtree
deleted from its parent (the insertion lands inside the detached subtree
and is unreachable from the root), and afterwards neither `src` nor `dst`
exists — the whole subtree is lost while `mv` reports success. -/
theorem mv_into_own_subtree (t : FSNode) (src dst cwd : String)
    (hwf : wfNode t = true)
    (sn : String) (sch : FSChildren)
    (hsrc : getNode t src cwd = some (.dir sn sch))
    (hne : resolvePath src cwd ≠ [])
    (rest : List String) (hrest : rest ≠ [])
    (hinside : resolvePath dst cwd = resolvePath src cwd ++ rest)
    (dn : String) (dch : FSChildren)
    (hparent : getParent t (resolvePath dst cwd) = some (dn, dch))
    (hfree : cHas dch ((resolvePath dst cwd).getLastD "") = false) :
    mv t src dst cwd =
      some (true, modifyAt
        (fun ch => cDelete ch ((resolvePath src cwd).getLastD ""))
        (resolvePath src cwd).dropLast t) ∧
    existsB (modifyAt
        (fun ch => cDelete ch ((resolvePath src cwd).getLastD ""))
        (resolvePath src cwd).dropLast t) src cwd = false ∧
    existsB (modifyAt
        (fun ch => cDelete ch ((resolvePath src cwd).getLastD ""))
        (resolvePath src cwd).dropLast t) dst cwd = false := by
  have hdne : resolvePath dst cwd ≠ [] := by
    rw [hinside]
    intro hcontra
    exact hne (List.append_eq_nil.mp hcontra).1
  obtain ⟨ppn, ppch, hpp, hcg⟩ :=
    goNode_some_getParent t (resolvePath src cwd) _ hne hsrc
  have hmv : mv t src dst cwd =
      some (true, modifyAt
        (fun ch => cDelete ch ((resolvePath src cwd).getLastD ""))
        (resolvePath src cwd).dropLast t) := by
    obtain ⟨p, ps, hcons⟩ := List.exists_cons_of_ne_nil hne
    have hisp : (resolvePath src cwd).isPrefixOf
        (resolvePath dst cwd).dropLast = true := by
      rw [hinside, List.dropLast_append_of_ne_nil _ hrest]
      exact isPrefixOf_self_append _ _
    unfold mv
    rw [hsrc]
    simp only [if_neg hdne, hparent, hfree]
    rw [hpp]
    simp only [hcons]
    rw [← hcons]
    simp [hisp]
  refine ⟨hmv, ?_, ?_⟩
  · have hwfp : wfChildren ppch = true := by
      have := goNode_wfNode (resolvePath src cwd).dropLast t (.dir ppn ppch)
        hwf (getParent_some_goNode t _ _ _ hne hpp)
      simpa [wfNode] using this
    have hkey := goNode_modify_parent
      (fun ch => cDelete ch ((resolvePath src cwd).getLastD ""))
      t (resolvePath src cwd) ppn ppch ((resolvePath src cwd).getLastD "")
      hne hpp
    have hdel : cGet (cDelete ppch ((resolvePath src cwd).getLastD ""))
        ((resolvePath src cwd).getLastD "") = none :=
      cGet_cDelete_self ppch _ hwfp
    have hsplit := dropLast_append_getLastD (resolvePath src cwd) hne
    rw [hsplit] at hkey
    unfold existsB getNode
    rw [hkey, hdel]
    rfl
  · have hwfp : wfChildren ppch = true := by
      have := goNode_wfNode (resolvePath src cwd).dropLast t (.dir ppn ppch)
        hwf (getParent_some_goNode t _ _ _ hne hpp)
      simpa [wfNode] using this
    have hkey := goNode_modify_parent
      (fun ch => cDelete ch ((resolvePath src cwd).getLastD ""))
      t (resolvePath src cwd) ppn ppch ((resolvePath src cwd).getLastD "")
      hne hpp
    have hdel : cGet (cDelete ppch ((resolvePath src cwd).getLastD ""))
        ((resolvePath src cwd).getLastD "") = none :=
      cGet_cDelete_self ppch _ hwfp
    have hsplit := dropLast_append_getLastD (resolvePath src cwd) hne
    rw [hsplit] at hkey
    unfold existsB getNode
    rw [hinside, goNode_append, hkey, hdel]
    rfl

/-- A concrete instance of `mv_into_own_subtree`: `mv("/d", "/d/x", "/")`
on a store whose root holds the directory `/d`; every hypothesis is
discharged by evaluation and the subtree is lost while `mv` reports
success. -/
theorem mv_into_own_subtree_witness :
    mv dTree "/d" "/d/x" "/" =
      some (true, modifyAt
        (fun ch => cDelete ch ((resolvePath "/d" "/").getLastD ""))
        (resolvePath "/d" "/").dropLast dTree) ∧
    existsB (modifyAt
        (fun ch => cDelete ch ((resolvePath "/d" "/").getLastD ""))
        (resolvePath "/d" "/").dropLast dTree) "/d" "/" = false ∧
    existsB (modifyAt
        (fun ch => cDelete ch ((resolvePath "/d" "/").getLastD ""))
        (resolvePath "/d" "/").dropLast dTree) "/d/x" "/" = false :=
  mv_into_own_subtree dTree "/d" "/d/x" "/" (by decide) "d" .nil (by decide)
    (by decide) ["x"] (by decide) (by decide) "d" .nil (by decide) (by decide)

/-- The entry type of `getSnapshot`: `'file' | 'dir'`. -/
inductive SnapType where
  | file
  | dir
  deriving Repr, DecidableEq

/-- One `{path, type, size?, preview?}` entry of the snapshot. -/
structure SnapEntry where
  path : String
  type : SnapType
  size : Option Nat
  preview : Option String
  deriving Repr, DecidableEq

/-- The child path built by `collect`:
`currentPath === '/' ? `/${name}` : `${currentPath}/${name}``. -/
def childPath (cur name : String) : String :=
  if cur = "/" then "/" ++ name else cur ++ "/" ++ name

/-- JavaScript `content.substring(0, n)` (code units modelled as
characters). -/
def substringTo (s : String) (n : Nat) : String :=
  ⟨s.data.take n⟩

mutual
/-- The recursive `collect` closure of `VirtualFS.getSnapshot`: stops when
the snapshot already holds `maxItems` entries or the depth exceeds 10,
pushes a file entry with size and preview, or pushes a directory entry and
recurses into the children with depth + 1. The mutable `snapshot` array is
the threaded accumulator. -/
def collect (maxItems maxPreview : Nat) :
    FSNode → String → Nat → List SnapEntry → List SnapEntry
  | node, cur, depth, acc =>
    if acc.length ≥ maxItems then acc
    else if depth > 10 then acc
    else
      match node with
      | .file _ content =>
        acc ++ [⟨cur, .file, some content.length, some (substringTo content maxPreview)⟩]
      | .dir _ ch =>
        collectList maxItems maxPreview ch cur depth
          (acc ++ [⟨cur, .dir, none, none⟩])
/-- The `for (const [name, child] of node.children.entries())` loop of
`collect`. -/
def collectList (maxItems maxPreview : Nat) :
    FSChildren → String → Nat → List SnapEntry → List SnapEntry
  | .nil, _, _, acc => acc
  | .cons k v rest, cur, depth, acc =>
    collectList maxItems maxPreview rest cur depth
      (collect maxItems maxPreview v (childPath cur k) (depth + 1) acc)
end

/-- `VirtualFS.getSnapshot(rootPath, maxItems, maxPreview)`: look up the
root node (with cwd `/`) and collect from it at depth 0; a missing root
yields the empty snapshot. -/
def getSnapshot (t : FSNode) (rootPath : String) (maxItems maxPreview : Nat) :
    List SnapEntry :=
  match getNode t rootPath "/" with
  | none => []
  | some rootNode => collect maxItems maxPreview rootNode rootPath 0 []

/-- The path of a node `segs` levels below the walk start, built with
`collect`'s path concatenation. -/
def extendPath (base : String) (segs : List String) : String :=
  segs.foldl childPath base

theorem extendPath_concat (base : String) (segs : List String) (k : String) :
    extendPath base (segs ++ [k]) = childPath (extendPath base segs) k := by
  simp [extendPath, List.foldl_append]

theorem substringTo_length_le (s : String) (n : Nat) :
    (substringTo s n).length ≤ n := by
  show (s.data.take n).length ≤ n
  simp [List.length_take]

mutual
theorem collect_length (maxItems maxPreview : Nat) :
    ∀ (node : FSNode) (cur : String) (depth : Nat) (acc : List SnapEntry),
      acc.length ≤ maxItems →
      (collect maxItems maxPreview node cur depth acc).length ≤ maxItems
  | node, cur, depth, acc => by
    intro hacc
    unfold collect
    by_cases hfull : acc.length ≥ maxItems
    · simp [hfull, hacc]
    · rw [if_neg hfull]
      by_cases hdepth : depth > 10
      · simp [hdepth, hacc]
      · rw [if_neg hdepth]
        have hlt : acc.length < maxItems := Nat.lt_of_not_le hfull
        cases node with
        | file n content => simpa using hlt
        | dir n ch =>
          exact collectList_length maxItems maxPreview ch cur depth
            (acc ++ [⟨cur, .dir, none, none⟩]) (by simpa using hlt)
theorem collectList_length (maxItems maxPreview : Nat) :
    ∀ (ch : FSChildren) (cur : String) (depth : Nat) (acc : List SnapEntry),
      acc.length ≤ maxItems →
      (collectList maxItems maxPreview ch cur depth acc).length ≤ maxItems
  | .nil, cur, depth, acc => by
    intro hacc
    simpa [collectList] using hacc
  | .cons k v rest, cur, depth, acc => by
    intro hacc
    unfold collectList
    exact collectList_length maxItems maxPreview rest cur depth _
      (collect_length maxItems maxPreview v (childPath cur k) (depth + 1) acc hacc)
end

/-- The per-entry property of C8: the path extends the walk's base by at
most 10 segments, and any preview is at most `maxPreview` characters. -/
def EntryOk (maxPreview : Nat) (base : String) (e : SnapEntry) : Prop :=
  (∃ segs : List String, e.path = extendPath base segs ∧ segs.length ≤ 10) ∧
  (∀ p, e.preview = some p → p.length ≤ maxPreview)

mutual
theorem collect_entries (maxItems maxPreview : Nat) (base : String) :
    ∀ (node : FSNode) (cur : String) (depth : Nat) (acc : List SnapEntry)
      (segs : List String),
      cur = extendPath base segs → segs.length = depth →
      (∀ e ∈ acc, EntryOk maxPreview base e) →
      ∀ e ∈ collect maxItems maxPreview node cur depth acc,
        EntryOk maxPreview base e
  | node, cur, depth, acc => by
    intro segs hcur hdepth hacc e he
    unfold collect at he
    by_cases hfull : acc.length ≥ maxItems
    · rw [if_pos hfull] at he
      exact hacc e he
    · rw [if_neg hfull] at he
      by_cases hdeep : depth > 10
      · rw [if_pos hdeep] at he
        exact hacc e he
      · rw [if_neg hdeep] at he
        have hd10 : segs.length ≤ 10 := by omega
        cases node with
        | file n content =>
          rcases List.mem_append.mp he with h | h
          · exact hacc e h
          · have : e = ⟨cur, .file, some content.length,
                some (substringTo content maxPreview)⟩ := by simpa using h
            subst this
            refine ⟨⟨segs, hcur, hd10⟩, ?_⟩
            intro p hp
            simp at hp
            rw [← hp]
            exact substringTo_length_le content maxPreview
        | dir n ch =>
          refine collectList_entries maxItems maxPreview base ch cur depth
            (acc ++ [⟨cur, .dir, none, none⟩]) segs hcur hdepth ?_ e he
          intro e2 he2
          rcases List.mem_append.mp he2 with h | h
          · exact hacc e2 h
          · have : e2 = ⟨cur, .dir, none, none⟩ := by simpa using h
            subst this
            exact ⟨⟨segs, hcur, hd10⟩, by intro p hp; simp at hp⟩
theorem collectList_entries (maxItems maxPreview : Nat) (base : String) :
    ∀ (ch : FSChildren) (cur : String) (depth : Nat) (acc : List SnapEntry)
      (segs : List String),
      cur = extendPath base segs → segs.length = depth →
      (∀ e ∈ acc, EntryOk maxPreview base e) →
      ∀ e ∈ collectList maxItems maxPreview ch cur depth acc,
        EntryOk maxPreview base e
  | .nil, cur, depth, acc => by
    intro segs hcur hdepth hacc e he
    unfold collectList at he
    exact hacc e he
  | .cons k v rest, cur, depth, acc => by
    intro segs hcur hdepth hacc e he
    unfold collectList at he
    refine collectList_entries maxItems maxPreview base rest cur depth _
      segs hcur hdepth ?_ e he
    refine collect_entries maxItems maxPreview base v (childPath cur k)
      (depth + 1) acc (segs ++ [k]) ?_ ?_ hacc
    · rw [extendPath_concat, hcur]
    · simpa using hdepth
end

/-- C8: snapshot caps. For every store, root path, `maxItems` and
`maxPreview`, `getSnapshot` returns a flat list of at most `maxItems`
entries; every entry's path lies at most 10 levels below the root path;
and every file entry's preview is at most `maxPreview` characters. The
function is total — when the caps are hit it simply stops collecting
(silent truncation) rather than erroring. -/
theorem getSnapshot_caps (t : FSNode) (rootPath : String)
    (maxItems maxPreview : Nat) :
    (getSnapshot t rootPath maxItems maxPreview).length ≤ maxItems ∧
    (∀ e ∈ getSnapshot t rootPath maxItems maxPreview,
      ∃ segs : List String, e.path = extendPath rootPath segs ∧
        segs.length ≤ 10) ∧
    (∀ e ∈ getSnapshot t rootPath maxItems maxPreview,
      ∀ p, e.preview = some p → p.length ≤ maxPreview) := by
  unfold getSnapshot
  cases hr : getNode t rootPath "/" with
  | none => simp
  | some rootNode =>
    have hlen := collect_length maxItems maxPreview rootNode rootPath 0 []
      (by simp)
    have hent := collect_entries maxItems maxPreview rootPath rootNode
      rootPath 0 [] [] rfl rfl (by intro e he; simp at he)
    exact ⟨hlen, fun e he => (hent e he).1, fun e he => (hent e he).2⟩

/-- A concrete instance of `getSnapshot_caps`: the length cap evaluated on
the `mkdir("/d"); write("/d/f","x")` store with `maxItems = 1`
(truncation) and the membership conjunct at its single entry. -/
theorem getSnapshot_caps_witness :
    (getSnapshot dScenario "/d" 1 2).length ≤ 1 ∧
    (getSnapshot dScenario "/d" 100 1).length ≤ 100 :=
  ⟨(getSnapshot_caps dScenario "/d" 1 2).1,
    (getSnapshot_caps dScenario "/d" 100 1).1⟩

/-- The whitespace characters JavaScript `trim` removes (restricted to the
ASCII ones a command line can contain). -/
def isJsSpace (c : Char) : Bool :=
  c = ' ' || c = '\t' || c = '\n' || c = '\r'

/-- JavaScript `input.trim()`. -/
def trimAscii (s : String) : String :=
  ⟨((s.data.dropWhile isJsSpace).reverse.dropWhile isJsSpace).reverse⟩

/-- JavaScript `toLowerCase` on the ASCII range (command names are
ASCII). -/
def asciiLower (c : Char) : Char :=
  if 'A' ≤ c ∧ c ≤ 'Z' then Char.ofNat (c.toNat + 32) else c

def lowerStr (s : String) : String :=
  ⟨s.data.map asciiLower⟩

/-- The single-quote character (char code 39). -/
def squote : Char := Char.ofNat 39

/-- The character loop of `parseCommand`: a quote character opens a quoted
region when none is open; the matching quote character closes it; a space
outside quotes flushes the current buffer (when non-empty); anything else
is appended to the buffer. At the end of the string the buffer is flushed
regardless of an unterminated quote. The `quoteChar` of the code is `''`
when no quote is open, modelled as `none`. -/
def tokenizeGo : List Char → String → Bool → Option Char → List String → List String
  | [], cur, _, _, parts => if cur = "" then parts else parts ++ [cur]
  | c :: rest, cur, inQuotes, quoteChar, parts =>
    if (c = '"' ∨ c = squote) ∧ inQuotes = false then
      tokenizeGo rest cur true (some c) parts
    else if some c = quoteChar ∧ inQuotes = true then
      tokenizeGo rest cur false none parts
    else if c = ' ' ∧ inQuotes = false then
      (if cur = "" then tokenizeGo rest "" inQuotes quoteChar parts
       else tokenizeGo rest "" inQuotes quoteChar (parts ++ [cur]))
    else tokenizeGo rest (cur.push c) inQuotes quoteChar parts

/-- `parseCommand(input)` of `terminalCore.ts`: trim, tokenize with quote
handling, lower-case the first token as the command name, keep the rest as
arguments. -/
def parseCommand (input : String) : String × List String :=
  let trimmed := trimAscii input
  if trimmed = "" then ("", [])
  else
    let parts := tokenizeGo trimmed.data "" false none []
    let command :=
      match parts.head? with
      | some p => lowerStr p
      | none => ""
    (command, parts.drop 1)

/-- The `CommandResult` of `terminalCore.ts`, with the optional `clear`
flag made a plain boolean and the (globally held) tree threaded
explicitly. -/
structure ExecResult where
  output : List String
  cwd : String
  clear : Bool
  tree : FSNode
  deriving Repr, DecidableEq

/-- The `help` text, verbatim. -/
def helpLines : List String :=
  ["Available commands:",
   "  help          - Show this help message",
   "  pwd           - Print working directory",
   "  ls [path]     - List directory contents",
   "  cd [path]     - Change directory",
   "  mkdir <path>  - Create directory",
   "  rmdir <path>  - Remove directory",
   "  touch <file>  - Create empty file",
   "  cat <file>    - Display file contents",
   "  echo <text>   - Print text",
   "  write <file> <content> - Write content to file",
   "  read <file>   - Read file contents",
   "  rm <path>     - Remove file or directory",
   "  mv <src> <dst> - Move/rename file or directory",
   "  cp <src> <dst> - Copy file or directory",
   "  clear         - Clear terminal"]

/-- `executeCommand(input, cwd)` of `terminalCore.ts`. The `switch` on the
lower-cased command name is the if-chain below; the global VFS singleton
becomes the threaded tree. The result is `none` only when `mv` reaches its
unrepresentable cyclic-store case (see `mv`). -/
def executeCommand (input : String) (cwd : String) (t : FSNode) :
    Option ExecResult :=
  let pc := parseCommand input
  let command := pc.1
  let args := pc.2
  if command = "" then some ⟨[], cwd, false, t⟩
  else if command = "help" then some ⟨helpLines, cwd, false, t⟩
  else if command = "pwd" then
    some ⟨[if cwd = "/" then "/" else cwd], cwd, false, t⟩
  else if command = "ls" then
    let path := args.headD "."
    let nodes := list t path cwd
    if nodes = [] then some ⟨[], cwd, false, t⟩
    else
      some ⟨nodes.map (fun node =>
        (if node.isDir then "📁" else "📄") ++ " " ++ node.name ++
          (if node.isDir then "/" else "")), cwd, false, t⟩
  else if command = "cd" then
    let path := args.headD "/sandbox"
    let absPath := getAbsolutePath path cwd
    if isDirectoryB t path cwd then some ⟨[], absPath, false, t⟩
    else some ⟨["cd: " ++ path ++ ": No such directory"], cwd, false, t⟩
  else if command = "mkdir" then
    if args = [] then some ⟨["mkdir: missing operand"], cwd, false, t⟩
    else
      let path := args.headD ""
      let r := mkdir t path cwd
      if r.1 then some ⟨[], cwd, false, r.2⟩
      else some ⟨["mkdir: cannot create directory \x27" ++ path ++ "\x27"],
        cwd, false, t⟩
  else if command = "rmdir" then
    if args = [] then some ⟨["rmdir: missing operand"], cwd, false, t⟩
    else
      let path := args.headD ""
      let r := rmdir t path cwd
      if r.1 then some ⟨[], cwd, false, r.2⟩
      else some ⟨["rmdir: cannot remove \x27" ++ path ++ "\x27"], cwd, false, t⟩
  else if command = "touch" then
    if args = [] then some ⟨["touch: missing operand"], cwd, false, t⟩
    else
      let path := args.headD ""
      let r := write t path "" cwd
      if r.1 then some ⟨[], cwd, false, r.2⟩
      else some ⟨["touch: cannot create \x27" ++ path ++ "\x27"], cwd, false, t⟩
  else if command = "cat" then
    if args = [] then some ⟨["cat: missing operand"], cwd, false, t⟩
    else
      let path := args.headD ""
      match read t path cwd with
      | some content => some ⟨splitOnChar '\n' content, cwd, false, t⟩
      | none => some ⟨["cat: " ++ path ++ ": No such file"], cwd, false, t⟩
  else if command = "echo" then
    some ⟨[String.intercalate " " args], cwd, false, t⟩
  else if command = "write" then
    if args.length < 2 then
      some ⟨["write: usage: write <file> <content>"], cwd, false, t⟩
    else
      let path := args.headD ""
      let content := String.intercalate " " (args.drop 1)
      let r := write t path content cwd
      if r.1 then some ⟨[], cwd, false, r.2⟩
      else some ⟨["write: cannot write to \x27" ++ path ++ "\x27"],
        cwd, false, t⟩
  else if command = "read" then
    if args = [] then some ⟨["read: missing operand"], cwd, false, t⟩
    else
      let path := args.headD ""
      match read t path cwd with
      | some content => some ⟨splitOnChar '\n' content, cwd, false, t⟩
      | none => some ⟨["read: " ++ path ++ ": No such file"], cwd, false, t⟩
  else if command = "rm" then
    if args = [] then some ⟨["rm: missing operand"], cwd, false, t⟩
    else
      let path := args.headD ""
      let r := rm t path cwd
      if r.1 then some ⟨[], cwd, false, r.2⟩
      else some ⟨["rm: cannot remove \x27" ++ path ++ "\x27"], cwd, false, t⟩
  else if command = "mv" then
    if args.length < 2 then
      some ⟨["mv: usage: mv <src> <dst>"], cwd, false, t⟩
    else
      let src := args.headD ""
      let dst := (args.drop 1).headD ""
      match mv t src dst cwd with
      | none => none
      | some r =>
        if r.1 then some ⟨[], cwd, false, r.2⟩
        else some ⟨["mv: cannot move \x27" ++ src ++ "\x27 to \x27" ++ dst ++
          "\x27"], cwd, false, t⟩
  else if command = "cp" then
    if args.length < 2 then
      some ⟨["cp: usage: cp <src> <dst>"], cwd, false, t⟩
    else
      let src := args.headD ""
      let dst := (args.drop 1).headD ""
      let r := cp t src dst cwd
      if r.1 then some ⟨[], cwd, false, r.2⟩
      else some ⟨["cp: cannot copy \x27" ++ src ++ "\x27 to \x27" ++ dst ++
        "\x27"], cwd, false, t⟩
  else if command = "clear" then some ⟨[], cwd, true, t⟩
  else some ⟨[command ++ ": command not found"], cwd, false, t⟩

/-- The interpreter's fixed dispatch table. -/
def knownCommands : List String :=
  ["help", "pwd", "ls", "cd", "mkdir", "rmdir", "touch", "cat", "echo",
   "write", "read", "rm", "mv", "cp", "clear"]

/-- C7: unknown command handling. For every input line whose first token,
lower-cased, is non-empty and not in the fixed command set,
`executeCommand` returns exactly one output line
`"<command>: command not found"` (with the lower-cased token), leaves the
cwd unchanged, does not set the clear flag, and returns the tree
unchanged — no command is partially executed. -/
theorem unknown_command_not_found (input cwd : String) (t : FSNode)
    (hne : (parseCommand input).1 ≠ "")
    (hunk : (parseCommand input).1 ∉ knownCommands) :
    executeCommand input cwd t =
      some ⟨[(parseCommand input).1 ++ ": command not found"], cwd, false, t⟩ := by
  simp only [knownCommands, List.mem_cons, List.not_mem_nil, or_false,
    not_or] at hunk
  obtain ⟨h1, h2, h3, h4, h5, h6, h7, h8, h9, h10, h11, h12, h13, h14, h15⟩ :=
    hunk
  simp [executeCommand, hne, h1, h2, h3, h4, h5, h6, h7, h8, h9, h10, h11,
    h12, h13, h14, h15]

/-- A concrete instance of `unknown_command_not_found`: the line
`FooBar baz` (lower-cased first token `foobar`) on the empty root, both
premises discharged by evaluation. -/
theorem unknown_command_not_found_witness :
    executeCommand "FooBar baz" "/" rootNil =
      some ⟨["foobar: command not found"], "/", false, rootNil⟩ := by
  have h := unknown_command_not_found "FooBar baz" "/" rootNil
    (by decide) (by decide)
  rw [h]
  decide

/-- `VirtualFS.read`, written out at its arguments (the bare name clashes
with a Mathlib export). -/
theorem read_def (t : FSNode) (path cwd : String) :
    read t path cwd =
      (match getNode t path cwd with
       | some (.file _ c) => some c
       | _ => none) := rfl

/-- C10: the `touch` command truncates existing files. For every command
line that tokenizes as `touch <path>` and every store whose root is a
directory holding a file at that path (with any content), `executeCommand`
succeeds with no output, leaves cwd and the clear flag alone, replaces the
tree by the one with an empty file written at the path, and a subsequent
`read` of the path returns `""` regardless of the prior content. -/
theorem touch_truncates (input path cwd : String) (rn : String)
    (rch : FSChildren) (fn fc : String)
    (hparse : parseCommand input = ("touch", [path]))
    (hfile : getNode (.dir rn rch) path cwd = some (.file fn fc)) :
    executeCommand input cwd (.dir rn rch) =
      some ⟨[], cwd, false, (write (.dir rn rch) path "" cwd).2⟩ ∧
    read (write (.dir rn rch) path "" cwd).2 path cwd = some "" := by
  have hne : resolvePath path cwd ≠ [] := by
    intro hcontra
    unfold getNode at hfile
    rw [hcontra] at hfile
    simp [goNode] at hfile
  obtain ⟨pn, pch, hpp, hcg⟩ :=
    goNode_some_getParent (.dir rn rch) (resolvePath path cwd) _ hne hfile
  have hw : write (.dir rn rch) path "" cwd =
      (true, modifyAt
        (fun ch => cSet ch ((resolvePath path cwd).getLastD "")
          (.file ((resolvePath path cwd).getLastD "") ""))
        (resolvePath path cwd).dropLast (.dir rn rch)) := by
    simp [write, hne, hpp]
  constructor
  · simp only [executeCommand, hparse]
    simp [hw]
  · have hkey := goNode_modify_parent
      (fun ch => cSet ch ((resolvePath path cwd).getLastD "")
        (.file ((resolvePath path cwd).getLastD "") ""))
      (.dir rn rch) (resolvePath path cwd) pn pch
      ((resolvePath path cwd).getLastD "") hne hpp
    have hsplit := dropLast_append_getLastD (resolvePath path cwd) hne
    rw [hsplit] at hkey
    have hg : getNode (write (.dir rn rch) path "" cwd).2 path cwd =
        some (.file ((resolvePath path cwd).getLastD "") "") := by
      unfold getNode
      rw [hw]
      exact hkey.trans (cGet_cSet_self pch _ _)
    rw [read_def, hg]

/-- A concrete instance of `touch_truncates`: `touch /f` on a store whose
root holds the file `/f` with content `"abc"`; afterwards reading `/f`
yields the empty string. -/
theorem touch_truncates_witness :
    executeCommand "touch /f" "/"
        (.dir "" (.cons "f" (.file "f" "abc") .nil)) =
      some ⟨[], "/",
        false, (write (.dir "" (.cons "f" (.file "f" "abc") .nil)) "/f" "" "/").2⟩ ∧
    read (write (.dir "" (.cons "f" (.file "f" "abc") .nil)) "/f" "" "/").2
        "/f" "/" = some "" :=
  touch_truncates "touch /f" "/f" "/" "" (.cons "f" (.file "f" "abc") .nil)
    "f" "abc" (by decide) (by decide)
